import Mathlib

/-!
Shallow embedding of the Distributed-Crypto-Analysis-System sources
(src/src/main.go) and of the Aggregator component specified in the design
document. Go float64 arithmetic is modelled over ℚ; every division the Go
code performs is guarded by the code itself, so no float-specific behaviour
(NaN/Inf) is reachable in the modelled paths. Go `time.Time` is modelled as
`Option ℕ` with `none` for the zero ("unset") time.
-/

/-- One entry of the Go `coins` table (symbol, name, short). -/
structure Coin where
  symbol : String
  name : String
  short : String
deriving DecidableEq, Repr

/-- The `coins` table from main.go: the six available trading pairs. -/
def coins : List Coin :=
  [⟨"btcusdt", "Bitcoin (BTC)", "BTC"⟩,
   ⟨"ethusdt", "Ethereum (ETH)", "ETH"⟩,
   ⟨"solusdt", "Solana (SOL)", "SOL"⟩,
   ⟨"bnbusdt", "Binance Coin (BNB)", "BNB"⟩,
   ⟨"xrpusdt", "Ripple (XRP)", "XRP"⟩,
   ⟨"dogeusdt", "Dogecoin (DOGE)", "DOGE"⟩]

/-- `GetCoinName` from main.go: first coin whose symbol matches, else the
input symbol unchanged. -/
def GetCoinName (symbol : String) : String :=
  match coins.find? (fun c => c.symbol == symbol) with
  | some c => c.name
  | none => symbol

/-- `GetCoinShort` from main.go: first coin whose symbol matches, else the
input symbol unchanged. -/
def GetCoinShort (symbol : String) : String :=
  match coins.find? (fun c => c.symbol == symbol) with
  | some c => c.short
  | none => symbol

/-- `PriceData` from main.go. Go zero values are `0` for float64 fields and
the unset time (`none`) for `UpdatedAt`. -/
structure PriceData where
  Price : ℚ
  PrevPrice : ℚ
  High : ℚ
  Low : ℚ
  MovingAverage : ℚ
  Change : ℚ
  ChangePercent : ℚ
  UpdatedAt : Option ℕ
deriving DecidableEq, Repr

/-- The Go zero value of `PriceData` (all numeric fields 0, time unset). -/
def zeroPriceData : PriceData :=
  { Price := 0, PrevPrice := 0, High := 0, Low := 0, MovingAverage := 0,
    Change := 0, ChangePercent := 0, UpdatedAt := none }

/-- `dashboardModel` from main.go (the `server` pointer field carries no
state relevant to the model and is omitted). -/
structure dashboardModel where
  symbol : String
  coinName : String
  coinShort : String
  data : PriceData
  history : List ℚ
  quitting : Bool
deriving DecidableEq, Repr

/-- `newDashboardModel` from main.go: the `data` field is left to its Go
zero value, `history` is an empty slice (capacity 20). -/
def newDashboardModel (symbol : String) : dashboardModel :=
  { symbol := symbol
    coinName := GetCoinName symbol
    coinShort := GetCoinShort symbol
    data := zeroPriceData
    history := []
    quitting := false }

/-- `dashboardModel.fetchPrice` from main.go, as a pure function of the
current model and of the values read from the server (`price`, the moving
average, high, low) and the clock. `change`/`changePercent` stay 0 unless
the previously displayed price `m.data.Price` is positive. -/
def fetchPrice (m : dashboardModel) (price ma high low : ℚ) (now : ℕ) :
    PriceData :=
  let change : ℚ := if 0 < m.data.Price then price - m.data.Price else 0
  let changePercent : ℚ :=
    if 0 < m.data.Price then (price - m.data.Price) / m.data.Price * 100
    else 0
  { Price := price
    PrevPrice := m.data.Price
    High := high
    Low := low
    MovingAverage := ma
    Change := change
    ChangePercent := changePercent
    UpdatedAt := some now }

/-- Messages handled by `dashboardModel.Update` in main.go: key presses,
timer ticks and price messages. -/
inductive DashMsg where
  | key (s : String)
  | tick (t : ℕ)
  | price (p : PriceData)
deriving DecidableEq, Repr

/-- `dashboardModel.Update` from main.go (the returned `tea.Cmd` is
dropped: only the model state matters here). A price message replaces
`data` and, when its price is positive, appends it to `history`, slicing
off the first element when the length exceeds 20. -/
def dashboardUpdate (m : dashboardModel) (msg : DashMsg) : dashboardModel :=
  match msg with
  | .key s =>
      if s = "ctrl+c" ∨ s = "q" then { m with quitting := true } else m
  | .tick _ => m
  | .price p =>
      let m1 := { m with data := p }
      if 0 < p.Price then
        let h := m1.history ++ [p.Price]
        { m1 with history := if 20 < h.length then h.drop 1 else h }
      else m1

/-- `selectModel` from main.go. The cursor is a Go `int`, modelled as ℤ. -/
structure selectModel where
  cursor : ℤ
  selected : String
  done : Bool
deriving DecidableEq, Repr

/-- The initial coin-selection model built in `RunTUI`: cursor 0. -/
def initialSelectModel : selectModel :=
  { cursor := 0, selected := "", done := false }

/-- `selectModel.Update` from main.go (the returned `tea.Cmd` is dropped).
Indexing `coins[m.cursor]` is modelled with `List.getD`; the bounds
theorem shows the default is never consulted. -/
def selectUpdate (m : selectModel) (key : String) : selectModel :=
  if key = "ctrl+c" ∨ key = "q" then { m with done := true }
  else if key = "up" ∨ key = "k" then
    if 0 < m.cursor then { m with cursor := m.cursor - 1 } else m
  else if key = "down" ∨ key = "j" then
    if m.cursor < (coins.length : ℤ) - 1 then { m with cursor := m.cursor + 1 }
    else m
  else if key = "enter" ∨ key = " " then
    { m with selected := (coins.getD m.cursor.toNat ⟨"", "", ""⟩).symbol,
             done := true }
  else m

/-- Go `int(q)` conversion from float64: truncation toward zero. -/
def goInt (q : ℚ) : ℤ := if 0 ≤ q then ⌊q⌋ else -⌊-q⌋

/-- The divisor used by `renderSparkline`: `max - min`, replaced by 1 when
it is 0 ("if rang == 0 { rang = 1 }"). -/
def sparkRange (minv maxv : ℚ) : ℚ :=
  if maxv - minv = 0 then 1 else maxv - minv

/-- The glyph index `renderSparkline` computes for one history value:
normalize into [0,1], scale by `len(chars)-1 = 7`, truncate, clamp to at
most 7 ("if idx >= len(chars) { idx = len(chars) - 1 }"). -/
def sparkGlyph (minv rang v : ℚ) : ℤ :=
  let normalized := (v - minv) / rang
  let idx := goInt (normalized * 7)
  if 8 ≤ idx then 7 else idx

/-- `dashboardModel.renderSparkline` from main.go, reduced to the glyph
indices it selects in the 8-element `chars` table (the lipgloss colouring
of each glyph carries no extra state). `none` models the
"waiting for data..." placeholder returned when the history has fewer
than 2 entries. `min`/`max` start at `history[0]` and scan the whole
slice, as in the source. -/
def renderSparkline : List ℚ → Option (List ℤ)
  | [] => none
  | [_] => none
  | h0 :: h1 :: rest =>
      let hist := h0 :: h1 :: rest
      let minv := hist.foldl min h0
      let maxv := hist.foldl max h0
      let rang := sparkRange minv maxv
      some (hist.map (fun v => sparkGlyph minv rang v))

/-!
The Aggregator. Its implementation (`Server`, `UpdatePrice`,
`GetMovingAverage`, `GetHigh`, `GetLow`) is not among the provided
sources; it is modelled from the specification.
-/

/-- The rolling-window capacity N (the spec's fixed configuration
constant, 20 as in the dashboard history). -/
def windowN : ℕ := 20

/-- Modelled from the spec: the Aggregator's Snapshot plus RollingWindow
state (the Aggregator implementation is not among the provided sources).
`count` tracks how many ticks have been ingested so that the first tick
can initialize `high`/`low`. -/
structure AggState where
  price : ℚ
  previousPrice : ℚ
  high : ℚ
  low : ℚ
  movingAverage : ℚ
  change : ℚ
  changePercent : ℚ
  window : List ℚ
  count : ℕ
  updatedAt : Option ℕ
deriving DecidableEq, Repr

/-- Modelled from the spec: a fresh Aggregator — before the first tick all
numeric fields are zero, the window is empty, `updatedAt` unset. -/
def freshAggregator : AggState :=
  { price := 0, previousPrice := 0, high := 0, low := 0, movingAverage := 0,
    change := 0, changePercent := 0, window := [], count := 0,
    updatedAt := none }

/-- Modelled from the spec: `Ingest(tick)` (§4.2) — record previousPrice,
set price, update high/low (first tick initializes both to the price),
recompute change/changePercent per the §3 invariants, append to the
rolling window evicting the oldest entry past capacity, recompute the
moving average as the arithmetic mean of the window, set updatedAt. -/
def Ingest (s : AggState) (t : ℚ) (now : ℕ) : AggState :=
  let previousPrice := s.price
  let price := t
  let high := if s.count = 0 then price else max s.high price
  let low := if s.count = 0 then price else min s.low price
  let change := price - previousPrice
  let changePercent :=
    if 0 < previousPrice then change / previousPrice * 100 else 0
  let w := s.window ++ [price]
  let window := if windowN < w.length then w.drop 1 else w
  let movingAverage := window.sum / (window.length : ℚ)
  { price := price, previousPrice := previousPrice, high := high, low := low,
    movingAverage := movingAverage, change := change,
    changePercent := changePercent, window := window, count := s.count + 1,
    updatedAt := some now }

/-- State of a fresh Aggregator after ingesting a sequence of ticks. -/
def aggAfter (ticks : List ℚ) : AggState :=
  ticks.foldl (fun s t => Ingest s t 0) freshAggregator

/-!
Claims C1 and C2: the change fields computed by `fetchPrice`.
-/

/-- C1 counterexample: on the very first update (previous displayed price
0, new price 5) the code leaves `Change = 0`, while
`Price - PrevPrice = 5`, so `change == price - previousPrice` does not
hold unconditionally. -/
theorem change_not_unconditional :
    ¬ ((fetchPrice (newDashboardModel "btcusdt") 5 0 0 0 0).Change
        = (fetchPrice (newDashboardModel "btcusdt") 5 0 0 0 0).Price
          - (fetchPrice (newDashboardModel "btcusdt") 5 0 0 0 0).PrevPrice) := by
  simp [fetchPrice, newDashboardModel, zeroPriceData]

/-- C1 (amended): `change == price - previousPrice` holds for every price
update whose previous price is positive; when the previous price is not
positive (in particular 0, e.g. on the very first tick) the code leaves
`change = 0`. -/
theorem change_eq_price_sub_prev (m : dashboardModel)
    (price ma high low : ℚ) (now : ℕ) :
    (0 < m.data.Price →
      (fetchPrice m price ma high low now).Change
        = (fetchPrice m price ma high low now).Price
          - (fetchPrice m price ma high low now).PrevPrice)
    ∧ (¬ 0 < m.data.Price →
      (fetchPrice m price ma high low now).Change = 0) := by
  constructor <;> intro h <;> simp [fetchPrice, h]

/-- Witness for `change_eq_price_sub_prev` at a concrete model with
previous price 2 (positive branch) and at the fresh model (zero branch). -/
theorem change_eq_price_sub_prev_witness :
    ((fetchPrice { newDashboardModel "btcusdt" with
        data := { zeroPriceData with Price := 2 } } 5 0 0 0 0).Change
      = (fetchPrice { newDashboardModel "btcusdt" with
          data := { zeroPriceData with Price := 2 } } 5 0 0 0 0).Price
        - (fetchPrice { newDashboardModel "btcusdt" with
            data := { zeroPriceData with Price := 2 } } 5 0 0 0 0).PrevPrice)
    ∧ (fetchPrice (newDashboardModel "btcusdt") 5 0 0 0 0).Change = 0 :=
  ⟨(change_eq_price_sub_prev { newDashboardModel "btcusdt" with
      data := { zeroPriceData with Price := 2 } } 5 0 0 0 0).1 (by norm_num),
   (change_eq_price_sub_prev (newDashboardModel "btcusdt") 5 0 0 0 0).2
     (by norm_num [newDashboardModel, zeroPriceData])⟩

/-- C2: `changePercent` equals `change / previousPrice * 100` whenever the
previous price is positive, and is exactly 0 when the previous price is 0
(the division is never executed in that case, so no NaN/Inf can arise). -/
theorem changePercent_spec (m : dashboardModel)
    (price ma high low : ℚ) (now : ℕ) :
    (0 < m.data.Price →
      (fetchPrice m price ma high low now).ChangePercent
        = (fetchPrice m price ma high low now).Change
          / (fetchPrice m price ma high low now).PrevPrice * 100)
    ∧ (m.data.Price = 0 →
      (fetchPrice m price ma high low now).ChangePercent = 0) := by
  refine ⟨fun h => ?_, fun h => ?_⟩
  · simp [fetchPrice, h]
  · simp [fetchPrice, h]

/-- Witness for `changePercent_spec`: previous price 4, new price 5 gives
changePercent 25; the fresh model (previous price 0) gives 0. -/
theorem changePercent_spec_witness :
    ((fetchPrice { newDashboardModel "btcusdt" with
        data := { zeroPriceData with Price := 4 } } 5 0 0 0 0).ChangePercent
      = (fetchPrice { newDashboardModel "btcusdt" with
          data := { zeroPriceData with Price := 4 } } 5 0 0 0 0).Change
        / (fetchPrice { newDashboardModel "btcusdt" with
            data := { zeroPriceData with Price := 4 } } 5 0 0 0 0).PrevPrice
          * 100)
    ∧ (fetchPrice (newDashboardModel "btcusdt") 5 0 0 0 0).ChangePercent = 0 :=
  ⟨(changePercent_spec { newDashboardModel "btcusdt" with
      data := { zeroPriceData with Price := 4 } } 5 0 0 0 0).1 (by norm_num),
   (changePercent_spec (newDashboardModel "btcusdt") 5 0 0 0 0).2
     (by norm_num [newDashboardModel, zeroPriceData])⟩

/-!
Claim C3: the rolling history window of the dashboard model.
-/

/-- One dashboard update preserves the history-capacity bound. -/
theorem dashboardUpdate_history_le (m : dashboardModel) (msg : DashMsg)
    (h : m.history.length ≤ 20) :
    (dashboardUpdate m msg).history.length ≤ 20 := by
  cases msg with
  | key s => simp only [dashboardUpdate]; split <;> simpa
  | tick t => simpa [dashboardUpdate]
  | price p =>
      simp only [dashboardUpdate]
      split
      · split <;> rename_i hc <;>
          simp only [List.length_drop, List.length_append,
            List.length_singleton] at hc ⊢ <;> omega
      · simpa

/-- Folding any message sequence preserves the history-capacity bound. -/
theorem foldl_dashboardUpdate_history_le (msgs : List DashMsg)
    (m : dashboardModel) (h : m.history.length ≤ 20) :
    (msgs.foldl dashboardUpdate m).history.length ≤ 20 := by
  induction msgs generalizing m with
  | nil => exact h
  | cons x xs ih => exact ih _ (dashboardUpdate_history_le m x h)

/-- C3: starting from a fresh dashboard model, after every prefix of any
message sequence the history holds at most 20 entries; and when the
history is full (20 entries) a positive-price message evicts exactly the
oldest entry before appending the new price. -/
theorem history_window_bounded (symbol : String) (msgs : List DashMsg)
    (k : ℕ) :
    ((msgs.take k).foldl dashboardUpdate (newDashboardModel symbol)).history.length ≤ 20
    ∧ (∀ (m : dashboardModel) (p : PriceData), m.history.length = 20 →
        0 < p.Price →
        (dashboardUpdate m (DashMsg.price p)).history
          = m.history.drop 1 ++ [p.Price]) := by
  constructor
  · exact foldl_dashboardUpdate_history_le _ _ (by simp [newDashboardModel])
  · intro m p hlen hpos
    simp only [dashboardUpdate, if_pos hpos]
    rw [if_pos (by simp [hlen])]
    exact List.drop_append_of_le_length (by omega)

/-- Witness for `history_window_bounded`: a full 20-entry history plus a
price-2 message drops the oldest entry and appends 2. -/
theorem history_window_bounded_witness :
    ((([] : List DashMsg).take 0).foldl dashboardUpdate
        (newDashboardModel "btcusdt")).history.length ≤ 20
    ∧ (dashboardUpdate
        { newDashboardModel "btcusdt" with history := List.replicate 20 1 }
        (DashMsg.price { zeroPriceData with Price := 2 })).history
      = (List.replicate 20 (1 : ℚ)).drop 1 ++ [2] :=
  ⟨(history_window_bounded "btcusdt" [] 0).1,
   (history_window_bounded "btcusdt" [] 0).2
     { newDashboardModel "btcusdt" with history := List.replicate 20 1 }
     { zeroPriceData with Price := 2 } (by simp) (by norm_num)⟩

/-!
Claim C8: the coin-selection cursor.
-/

/-- One key message preserves the cursor bounds. -/
theorem selectUpdate_cursor_bounds (m : selectModel) (key : String)
    (h0 : 0 ≤ m.cursor) (h1 : m.cursor ≤ (coins.length : ℤ) - 1) :
    0 ≤ (selectUpdate m key).cursor
    ∧ (selectUpdate m key).cursor ≤ (coins.length : ℤ) - 1 := by
  simp only [selectUpdate]
  split_ifs <;> (try simp) <;> omega

/-- Folding any key sequence preserves the cursor bounds. -/
theorem foldl_selectUpdate_cursor_bounds (keys : List String)
    (m : selectModel) (h0 : 0 ≤ m.cursor)
    (h1 : m.cursor ≤ (coins.length : ℤ) - 1) :
    0 ≤ (keys.foldl selectUpdate m).cursor
    ∧ (keys.foldl selectUpdate m).cursor ≤ (coins.length : ℤ) - 1 := by
  induction keys generalizing m with
  | nil => exact ⟨h0, h1⟩
  | cons x xs ih =>
      obtain ⟨g0, g1⟩ := selectUpdate_cursor_bounds m x h0 h1
      exact ih _ g0 g1

/-- C8: from the initial selection model (cursor 0), after every prefix of
any key sequence the cursor stays in [0, 5], so indexing the 6-entry
coins table with it never goes out of range. -/
theorem cursor_stays_in_bounds (keys : List String) (k : ℕ) :
    0 ≤ ((keys.take k).foldl selectUpdate initialSelectModel).cursor
    ∧ ((keys.take k).foldl selectUpdate initialSelectModel).cursor ≤ 5
    ∧ (((keys.take k).foldl selectUpdate initialSelectModel).cursor).toNat
        < coins.length := by
  obtain ⟨g0, g1⟩ := foldl_selectUpdate_cursor_bounds (keys.take k)
    initialSelectModel (by simp [initialSelectModel])
    (by simp [initialSelectModel, coins])
  have hlen : coins.length = 6 := rfl
  rw [hlen] at g1
  exact ⟨g0, by omega, by rw [hlen]; omega⟩

/-!
Claim C4: the freshly constructed dashboard model.
-/

/-- C4: a freshly constructed dashboard model has price 0, every derived
field zero-valued, `UpdatedAt` unset, and an empty history. -/
theorem newDashboardModel_all_zero (symbol : String) :
    (newDashboardModel symbol).data.Price = 0
    ∧ (newDashboardModel symbol).data.PrevPrice = 0
    ∧ (newDashboardModel symbol).data.High = 0
    ∧ (newDashboardModel symbol).data.Low = 0
    ∧ (newDashboardModel symbol).data.MovingAverage = 0
    ∧ (newDashboardModel symbol).data.Change = 0
    ∧ (newDashboardModel symbol).data.ChangePercent = 0
    ∧ (newDashboardModel symbol).data.UpdatedAt = none
    ∧ (newDashboardModel symbol).history = [] :=
  ⟨rfl, rfl, rfl, rfl, rfl, rfl, rfl, rfl, rfl⟩

/-!
Claim C10: the coin lookup helpers.
-/

/-- C10: for every symbol, `GetCoinName`/`GetCoinShort` return the
matching coin's name/short label when the symbol appears in the coins
table, and return the input symbol unchanged when it does not. -/
theorem coin_lookup_spec (symbol : String) :
    (∀ c ∈ coins, c.symbol = symbol →
      GetCoinName symbol = c.name ∧ GetCoinShort symbol = c.short)
    ∧ ((∀ c ∈ coins, c.symbol ≠ symbol) →
      GetCoinName symbol = symbol ∧ GetCoinShort symbol = symbol) := by
  constructor
  · intro c hc hsym
    simp only [coins, List.mem_cons, List.not_mem_nil, or_false] at hc
    rcases hc with rfl | rfl | rfl | rfl | rfl | rfl <;>
      subst hsym <;> exact ⟨by decide, by decide⟩
  · intro h
    have hfind : coins.find? (fun c => c.symbol == symbol) = none := by
      rw [List.find?_eq_none]
      intro c hc
      simpa using h c hc
    constructor <;> simp [GetCoinName, GetCoinShort, hfind]

/-- Witness for `coin_lookup_spec`: "btcusdt" is found in the table,
"zzz" is not and is returned unchanged. -/
theorem coin_lookup_spec_witness :
    (GetCoinName "btcusdt" = "Bitcoin (BTC)"
      ∧ GetCoinShort "btcusdt" = "BTC")
    ∧ (GetCoinName "zzz" = "zzz" ∧ GetCoinShort "zzz" = "zzz") :=
  ⟨(coin_lookup_spec "btcusdt").1 ⟨"btcusdt", "Bitcoin (BTC)", "BTC"⟩
      (by decide) rfl,
   (coin_lookup_spec "zzz").2 (by decide)⟩

/-!
Claim C9: totality of the sparkline renderer.
-/

/-- Folding `min` over a list stays below the initial accumulator. -/
theorem foldl_min_le_init (l : List ℚ) (a : ℚ) : l.foldl min a ≤ a := by
  induction l generalizing a with
  | nil => exact le_refl a
  | cons x xs ih => exact le_trans (ih (min a x)) (min_le_left a x)

/-- Folding `min` over a list stays below every member. -/
theorem foldl_min_le_mem (l : List ℚ) (a : ℚ) (v : ℚ) (hv : v ∈ l) :
    l.foldl min a ≤ v := by
  induction l generalizing a with
  | nil => cases hv
  | cons x xs ih =>
      rcases List.mem_cons.mp hv with rfl | h
      · exact le_trans (foldl_min_le_init xs (min a v)) (min_le_right a v)
      · exact ih (min a x) h

/-- Folding `max` over a list stays above the initial accumulator. -/
theorem le_foldl_max_init (l : List ℚ) (a : ℚ) : a ≤ l.foldl max a := by
  induction l generalizing a with
  | nil => exact le_refl a
  | cons x xs ih => exact le_trans (le_max_left a x) (ih (max a x))

/-- Folding `max` over a list stays above every member. -/
theorem mem_le_foldl_max (l : List ℚ) (a : ℚ) (v : ℚ) (hv : v ∈ l) :
    v ≤ l.foldl max a := by
  induction l generalizing a with
  | nil => cases hv
  | cons x xs ih =>
      rcases List.mem_cons.mp hv with rfl | h
      · exact le_trans (le_max_right a v) (le_foldl_max_init xs (max a v))
      · exact ih (max a x) h

/-- The sparkline divisor is positive whenever min ≤ max. -/
theorem sparkRange_pos (minv maxv : ℚ) (h : minv ≤ maxv) :
    0 < sparkRange minv maxv := by
  unfold sparkRange
  split
  · norm_num
  · rename_i hne
    exact lt_of_le_of_ne (by linarith) (Ne.symm hne)

/-- A value between min and max stays within the sparkline divisor. -/
theorem sub_le_sparkRange (minv maxv v : ℚ)
    (hv : v ≤ maxv) : v - minv ≤ sparkRange minv maxv := by
  unfold sparkRange
  split
  · rename_i h0; linarith
  · linarith

/-- The clamped glyph index is in [0, 8) whenever the value lies within
[minv, minv + rang] for a positive divisor `rang`. -/
theorem sparkGlyph_bounds (minv rang v : ℚ) (hrang : 0 < rang)
    (h0 : 0 ≤ v - minv) (h1 : v - minv ≤ rang) :
    0 ≤ sparkGlyph minv rang v ∧ sparkGlyph minv rang v < 8 := by
  have hnorm0 : 0 ≤ (v - minv) / rang := div_nonneg h0 (le_of_lt hrang)
  have hnorm1 : (v - minv) / rang ≤ 1 := (div_le_one hrang).mpr h1
  have hx0 : 0 ≤ (v - minv) / rang * 7 := by positivity
  have hx7 : (v - minv) / rang * 7 ≤ 7 := by nlinarith
  have hf0 : 0 ≤ ⌊(v - minv) / rang * 7⌋ := Int.floor_nonneg.mpr hx0
  have hf7 : ⌊(v - minv) / rang * 7⌋ ≤ 7 := by
    have h := Int.floor_le_floor hx7
    simpa using h
  simp only [sparkGlyph, goInt, if_pos hx0]
  split <;> omega

/-- C9: `renderSparkline` is total — with fewer than 2 history entries it
returns the placeholder (`none`); the divisor is never 0; with at least 2
entries it returns one glyph index per entry and every index lies inside
the 8-element character table. -/
theorem renderSparkline_total (history : List ℚ) :
    (history.length < 2 → renderSparkline history = none)
    ∧ (∀ minv maxv : ℚ, sparkRange minv maxv ≠ 0)
    ∧ (2 ≤ history.length →
        ∃ l : List ℤ, renderSparkline history = some l
          ∧ l.length = history.length
          ∧ ∀ i ∈ l, 0 ≤ i ∧ i < 8) := by
  refine ⟨?_, ?_, ?_⟩
  · intro h
    rcases history with _ | ⟨a, t1⟩
    · rfl
    rcases t1 with _ | ⟨b, t⟩
    · rfl
    · simp only [List.length_cons] at h; omega
  · intro minv maxv
    unfold sparkRange
    split
    · norm_num
    · assumption
  · intro h
    rcases history with _ | ⟨a, t1⟩
    · simp at h
    rcases t1 with _ | ⟨b, t⟩
    · simp at h
    refine ⟨_, rfl, by simp [renderSparkline], ?_⟩
    intro i hi
    simp only [renderSparkline, List.mem_map] at hi
    obtain ⟨v, hv, rfl⟩ := hi
    have hminv : (a :: b :: t).foldl min a ≤ v :=
      foldl_min_le_mem (a :: b :: t) a v hv
    have hmaxv : v ≤ (a :: b :: t).foldl max a :=
      mem_le_foldl_max (a :: b :: t) a v hv
    have hmm : (a :: b :: t).foldl min a ≤ (a :: b :: t).foldl max a :=
      le_trans (foldl_min_le_init (a :: b :: t) a)
        (le_foldl_max_init (a :: b :: t) a)
    exact sparkGlyph_bounds _ _ v (sparkRange_pos _ _ hmm)
      (by linarith) (sub_le_sparkRange _ _ v hmaxv)

/-- Witness for `renderSparkline_total` on the concrete history [1, 3]:
the placeholder case at [1], and the glyph-index bounds at [1, 3]. -/
theorem renderSparkline_total_witness :
    renderSparkline [(1 : ℚ)] = none
    ∧ ∃ l : List ℤ, renderSparkline [(1 : ℚ), 3] = some l
        ∧ l.length = ([(1 : ℚ), 3]).length
        ∧ ∀ i ∈ l, 0 ≤ i ∧ i < 8 :=
  ⟨(renderSparkline_total [(1 : ℚ)]).1 (by norm_num),
   (renderSparkline_total [(1 : ℚ), 3]).2.2 (by norm_num)⟩

/-!
Claims C5-C7: the Aggregator (modelled from the spec).
-/

/-- Ingesting one more tick is one `Ingest` step on the folded state. -/
theorem aggAfter_append_single (ticks : List ℚ) (t : ℚ) :
    aggAfter (ticks ++ [t]) = Ingest (aggAfter ticks) t 0 := by
  simp [aggAfter, List.foldl_append]

/-- The tick counter of the folded state counts the ingested ticks. -/
theorem foldl_ingest_count (ticks : List ℚ) (s : AggState) :
    (ticks.foldl (fun s t => Ingest s t 0) s).count
      = s.count + ticks.length := by
  induction ticks generalizing s with
  | nil => simp
  | cons x xs ih =>
      rw [List.foldl_cons, ih]
      simp only [List.length_cons, Ingest]
      omega

/-- The tick counter of a fresh Aggregator counts the ingested ticks. -/
theorem aggAfter_count (ticks : List ℚ) :
    (aggAfter ticks).count = ticks.length := by
  simpa [freshAggregator] using foldl_ingest_count ticks freshAggregator

/-- C5: for every tick sequence fed to a fresh Aggregator, after each
ingest the new tick lies between low and high; high never decreases and
low never increases from one ingest to the next; and the first tick
initializes both high and low to its price. -/
theorem ingest_high_low (ticks : List ℚ) (t : ℚ) :
    ((aggAfter (ticks ++ [t])).low ≤ (aggAfter (ticks ++ [t])).price
      ∧ (aggAfter (ticks ++ [t])).price ≤ (aggAfter (ticks ++ [t])).high
      ∧ (aggAfter (ticks ++ [t])).price = t)
    ∧ (ticks ≠ [] →
        (aggAfter ticks).high ≤ (aggAfter (ticks ++ [t])).high
        ∧ (aggAfter (ticks ++ [t])).low ≤ (aggAfter ticks).low)
    ∧ (ticks = [] →
        (aggAfter (ticks ++ [t])).high = t
        ∧ (aggAfter (ticks ++ [t])).low = t) := by
  rw [aggAfter_append_single]
  refine ⟨?_, ?_, ?_⟩
  · simp only [Ingest]
    split_ifs <;> simp
  · intro hne
    have hcount : (aggAfter ticks).count ≠ 0 := by
      rw [aggAfter_count]
      exact fun h => hne (List.length_eq_zero.mp h)
    simp only [Ingest, if_neg hcount]
    exact ⟨le_max_left _ _, min_le_left _ _⟩
  · intro he
    subst he
    simp [aggAfter, Ingest, freshAggregator]

/-- Witness for `ingest_high_low`: after [1] then 2, high grew to 2 and
low stayed 1; on the first tick 2, high = low = 2. -/
theorem ingest_high_low_witness :
    ((aggAfter [1]).high ≤ (aggAfter ([1] ++ [2])).high
      ∧ (aggAfter ([1] ++ [2])).low ≤ (aggAfter [1]).low)
    ∧ ((aggAfter (([] : List ℚ) ++ [2])).high = 2
      ∧ (aggAfter (([] : List ℚ) ++ [2])).low = 2) :=
  ⟨(ingest_high_low [1] 2).2.1 (by simp),
   (ingest_high_low [] 2).2.2 rfl⟩

/-- The rolling window of the folded state holds exactly the last
`windowN` ingested ticks (all of them while there are at most `windowN`:
in that case the dropped prefix is empty). -/
theorem aggAfter_window (ticks : List ℚ) :
    (aggAfter ticks).window = ticks.drop (ticks.length - windowN) := by
  induction ticks using List.reverseRecOn with
  | nil => rfl
  | append_singleton l t ih =>
      rw [aggAfter_append_single]
      simp only [Ingest]
      rw [ih]
      have hL : (l.drop (l.length - windowN)).length
          = l.length - (l.length - windowN) := List.length_drop _ _
      have hN : windowN = 20 := rfl
      split
      · rename_i hc
        rw [List.length_append, List.length_singleton, hL] at hc
        rw [List.drop_append_of_le_length (by omega),
          List.drop_drop,
          List.drop_append_of_le_length
            (by rw [List.length_append, List.length_singleton]; omega)]
        rw [List.length_append, List.length_singleton]
        congr 2
        omega
      · rename_i hc
        rw [List.length_append, List.length_singleton, hL] at hc
        have h0 : l.length - windowN = 0 := by omega
        have h1 : l.length + 1 - windowN = 0 := by omega
        rw [h0, List.drop_zero, List.length_append, List.length_singleton,
          h1, List.drop_zero]

/-- After at least one ingest, the moving average is the mean of the
rolling window. -/
theorem aggAfter_movingAverage (l : List ℚ) (t : ℚ) :
    (aggAfter (l ++ [t])).movingAverage
      = (aggAfter (l ++ [t])).window.sum
        / ((aggAfter (l ++ [t])).window.length : ℚ) := by
  rw [aggAfter_append_single]
  simp only [Ingest]

/-- C6: after ingesting a nonempty tick sequence, the moving average is
the exact arithmetic mean of all ticks while at most `windowN` have been
ingested, and the mean of only the last `windowN` ticks afterwards. -/
theorem movingAverage_is_window_mean (ticks : List ℚ) (hne : ticks ≠ []) :
    (ticks.length ≤ windowN →
      (aggAfter ticks).movingAverage = ticks.sum / (ticks.length : ℚ))
    ∧ (windowN < ticks.length →
      (aggAfter ticks).movingAverage
        = (ticks.drop (ticks.length - windowN)).sum / (windowN : ℚ)) := by
  rcases List.eq_nil_or_concat ticks with rfl | ⟨l, t, rfl⟩
  · exact absurd rfl hne
  simp only [List.concat_eq_append] at hne ⊢
  have hma := aggAfter_movingAverage l t
  rw [aggAfter_window] at hma
  constructor
  · intro hle
    rw [hma, Nat.sub_eq_zero_of_le hle, List.drop_zero]
  · intro hgt
    rw [hma]
    congr 1
    rw [List.length_drop]
    congr 1
    omega

/-- Witness for `movingAverage_is_window_mean`: after ingesting [1, 2]
the moving average is their mean. -/
theorem movingAverage_is_window_mean_witness :
    (aggAfter [1, 2]).movingAverage
      = ([1, 2] : List ℚ).sum / (([1, 2] : List ℚ).length : ℚ) :=
  (movingAverage_is_window_mean [1, 2] (by simp)).1 (by decide)

/-- C7: ingesting 100, 105, 95, 110 into a fresh Aggregator yields
high 110, low 95, price 110, previousPrice 95, change 15,
changePercent 1500/95 = 300/19 (within 1/1000 of 15.789), and moving
average equal to the mean of all four values. -/
theorem scenario_100_105_95_110 :
    (aggAfter [100, 105, 95, 110]).high = 110
    ∧ (aggAfter [100, 105, 95, 110]).low = 95
    ∧ (aggAfter [100, 105, 95, 110]).price = 110
    ∧ (aggAfter [100, 105, 95, 110]).previousPrice = 95
    ∧ (aggAfter [100, 105, 95, 110]).change = 15
    ∧ (aggAfter [100, 105, 95, 110]).changePercent = 300 / 19
    ∧ |(aggAfter [100, 105, 95, 110]).changePercent - 15789 / 1000| < 1 / 1000
    ∧ (aggAfter [100, 105, 95, 110]).movingAverage
        = (100 + 105 + 95 + 110) / 4 := by
  norm_num [aggAfter, Ingest, freshAggregator, windowN, List.foldl]
  rw [abs_lt]
  constructor <;> norm_num
